import Mathlib

/-!
Shallow embedding of `src/linked-list/src/lib.rs`: a singly linked list of
`String` values (`LinkedList`) with `push`/`pop` at the head, `peek`,
`len`, `is_empty`, `Display` formatting, forward iterators, and an
iterative `Drop` loop.  The Rust recursive type `Option<Box<Node>>`
(where `Node { data: String, next: Option<Box<Node>> }`) is embedded as
the inductive `Chain`: `Chain.nil` is `None` and `Chain.cons data next`
is `Some(Box(Node { data, next }))`.  `Box` is only heap indirection and
has no semantic content.  Methods taking `&mut self` are embedded as
functions returning the updated store (paired with the return value).
-/

set_option autoImplicit false

namespace LinkedListRs

/-- Embedding of `Option<Box<Node>>`: `nil` models `None`; `cons data next`
models `Some(Box(Node { data, next }))`. -/
inductive Chain where
  | nil : Chain
  | cons (data : String) (next : Chain) : Chain
deriving DecidableEq, Repr, Inhabited

namespace Chain

/-- Number of nodes reachable by following `next` links to the end of the
chain. -/
def length : Chain → Nat
  | nil => 0
  | cons _ next => next.length + 1

/-- Element values in head-to-tail order; this is the sequence the `Iter`
iterator (`impl Iterator for Iter`, lib.rs lines 91-99) yields: it returns
the current node's `data` and advances to `node.next` until `None`. -/
def toList : Chain → List String
  | nil => []
  | cons d next => d :: next.toList

/-- Body of the `Display` loop (lib.rs lines 71-84): write the node's
`data`, then `", "` exactly when `node.next.is_some()`, then continue with
the next node. -/
def displayBody : Chain → String
  | nil => ""
  | cons d next =>
      d ++ (match next with | nil => "" | cons _ _ => ", ") ++ next.displayBody

/-- Effect on the chain of one `iter_mut()` traversal whose loop body
appends the suffix `s` to every yielded `&mut String` (as in
`test_iter_mut`): each node's `data` is replaced in place by `data ++ s`,
the `next` links are untouched. -/
def appendEach (s : String) : Chain → Chain
  | nil => nil
  | cons d next => cons (d ++ s) (next.appendEach s)

/-- One iteration of the `Drop` loop (lib.rs lines 62-69): the loop holds
`current_node : Option<Box<Node>>`; each pass detaches the current head
and replaces it by `boxed_node.next.take()`.  On `nil` the `while let`
exits, which we model as staying at `nil`. -/
def dropStep : Chain → Chain
  | nil => nil
  | cons _ next => next

/-- Chain of `n` nodes all holding the value `s` (used to instantiate
claims about very long chains). -/
def replicate : Nat → String → Chain
  | 0, _ => nil
  | n + 1, s => cons s (replicate n s)

end Chain

/-- Embedding of `pub struct LinkedList { head: Option<Box<Node>>, size: usize }`. -/
structure LinkedList where
  head : Chain
  size : Nat
deriving DecidableEq, Repr

namespace LinkedList

/-- `LinkedList::new()`: head `None`, size 0. -/
def new : LinkedList := { head := Chain.nil, size := 0 }

/-- `LinkedList::push(&mut self, data: String)`: the new node's `next` is
the old head (`self.head.take()`), the new node becomes the head, and
`self.size += 1`. -/
def push (l : LinkedList) (data : String) : LinkedList :=
  { head := Chain.cons data l.head, size := l.size + 1 }

/-- `LinkedList::pop(&mut self) -> Option<String>`: `self.head.take()?`
returns `None` early on an empty list (leaving the store unchanged);
otherwise the head node is detached, its `next` becomes the new head,
`self.size -= 1`, and its `data` is returned. -/
def pop (l : LinkedList) : Option String × LinkedList :=
  match l.head with
  | Chain.nil => (none, l)
  | Chain.cons d next => (some d, { head := next, size := l.size - 1 })

/-- `LinkedList::len(&mut self) -> usize`: returns `self.size`. -/
def len (l : LinkedList) : Nat := l.size

/-- `LinkedList::is_empty(&mut self) -> bool`: returns `self.head.is_none()`. -/
def isEmpty (l : LinkedList) : Bool :=
  match l.head with
  | Chain.nil => true
  | Chain.cons _ _ => false

/-- `LinkedList::peek(&self) -> Option<&String>`:
`self.head.as_ref().map(|node| &node.data)`.  The method takes `&self`,
so in the embedding it is a plain function of the store and cannot change
it. -/
def peek (l : LinkedList) : Option String :=
  match l.head with
  | Chain.nil => none
  | Chain.cons d _ => some d

/-- `impl fmt::Display for LinkedList` (lib.rs lines 71-84): `"["`, then
the loop over the chain, then `"]"`. -/
def display (l : LinkedList) : String :=
  "[" ++ l.head.displayBody ++ "]"

/-- Result of `list.iter().collect()`: `iter()` starts at
`self.head.as_deref()` and the iterator walks the `next` links. -/
def iterList (l : LinkedList) : List String := l.head.toList

/-- Whole-store effect of the `iter_mut()` suffix-appending traversal:
only node `data` fields change (`Chain.appendEach`); the chain structure
and `size` are untouched. -/
def iterMutAppend (l : LinkedList) (s : String) : LinkedList :=
  { head := l.head.appendEach s, size := l.size }

end LinkedList

/-- State of `pub struct Iter<'a> { next: Option<&'a Node> }`. -/
structure Iter where
  next : Chain
deriving DecidableEq, Repr

/-- `LinkedList::iter(&self)`: `Iter { next: self.head.as_deref() }`. -/
def LinkedList.iter (l : LinkedList) : Iter := { next := l.head }

/-- `impl Iterator for Iter::next` (lib.rs lines 91-99): on a node, yield
its `data` and advance `self.next` to `node.next.as_deref()`; on `None`,
yield `None` and stay exhausted. -/
def Iter.step (it : Iter) : Option String × Iter :=
  match it.next with
  | Chain.nil => (none, it)
  | Chain.cons d next => (some d, { next := next })

/-- Draining the iterator to completion: the list of all values yielded
before the first `None`. -/
def Iter.collect (it : Iter) : List String :=
  it.next.toList

/-- One operation of the public mutating interface, for stating
reachability of stores from `new()`. -/
inductive Op where
  | push (s : String) : Op
  | pop : Op
deriving DecidableEq, Repr

/-- Application of one operation to a store (the value returned by `pop`
is discarded; only the store evolves). -/
def applyOp (l : LinkedList) : Op → LinkedList
  | Op.push s => l.push s
  | Op.pop => (l.pop).2

/-- Store obtained from `new()` by running the operations in order. -/
def run (ops : List Op) : LinkedList := ops.foldl applyOp LinkedList.new

/-- Number of `push` operations in a sequence. -/
def pushCount : List Op → Nat
  | [] => 0
  | Op.push _ :: rest => pushCount rest + 1
  | Op.pop :: rest => pushCount rest

/-- Number of `pop` operations in a sequence. -/
def popCount : List Op → Nat
  | [] => 0
  | Op.push _ :: rest => popCount rest
  | Op.pop :: rest => popCount rest + 1

/-- `validFrom n ops`: starting from a store of `n` elements, every `pop`
in `ops` happens while the store is non-empty (the number of prior pushes
plus `n` exceeds the number of prior pops). -/
def validFrom : Nat → List Op → Prop
  | _, [] => True
  | n, Op.push _ :: rest => validFrom (n + 1) rest
  | n, Op.pop :: rest => 0 < n ∧ validFrom (n - 1) rest

/-- Pushing a whole list of values in order (`v1` first). -/
def LinkedList.pushAll (l : LinkedList) (vs : List String) : LinkedList :=
  vs.foldl LinkedList.push l

/-- Results of `n` successive calls to `pop()`. -/
def popTimes : LinkedList → Nat → List (Option String)
  | _, 0 => []
  | l, n + 1 =>
      match l.pop with
      | (r, l2) => r :: popTimes l2 n

/-! ### Helper lemmas -/

@[simp]
lemma Chain.toList_length (c : Chain) : c.toList.length = c.length := by
  induction c <;> simp [Chain.toList, Chain.length, *]

lemma pushAll_head_toList (l : LinkedList) (vs : List String) :
    (l.pushAll vs).head.toList = vs.reverse ++ l.head.toList := by
  induction vs generalizing l with
  | nil => simp [LinkedList.pushAll]
  | cons v vs ih =>
      show ((l.push v).pushAll vs).head.toList = _
      rw [ih]
      simp [LinkedList.push, Chain.toList]

lemma popTimes_drain (c : Chain) (s : Nat) :
    popTimes { head := c, size := s } (c.length + 1)
      = c.toList.map some ++ [none] := by
  induction c generalizing s with
  | nil => simp [popTimes, LinkedList.pop, Chain.toList, Chain.length]
  | cons d next ih =>
      show some d :: popTimes { head := next, size := s - 1 } (next.length + 1)
          = ((Chain.cons d next).toList).map some ++ [none]
      rw [ih]
      simp [Chain.toList]

lemma foldl_size_eq (ops : List Op) :
    ∀ l : LinkedList, l.size = l.head.length →
      (ops.foldl applyOp l).size = (ops.foldl applyOp l).head.length := by
  induction ops with
  | nil => intro l h; simpa using h
  | cons op rest ih =>
      intro l h
      simp only [List.foldl_cons]
      cases op with
      | push s => exact ih _ (by simp [applyOp, LinkedList.push, Chain.length, h])
      | pop =>
          apply ih
          obtain ⟨c, n⟩ := l
          cases c with
          | nil => simpa [applyOp, LinkedList.pop] using h
          | cons d next =>
              simp [applyOp, LinkedList.pop, Chain.length] at h ⊢
              omega

lemma foldl_len_valid (ops : List Op) :
    ∀ l : LinkedList, l.size = l.head.length → validFrom l.len ops →
      (ops.foldl applyOp l).len + popCount ops = l.len + pushCount ops := by
  induction ops with
  | nil => intro l _ _; simp [pushCount, popCount]
  | cons op rest ih =>
      intro l h hv
      simp only [List.foldl_cons]
      cases op with
      | push s =>
          have h2 : (l.push s).size = (l.push s).head.length := by
            simp [LinkedList.push, Chain.length, h]
          have hv2 : validFrom (l.push s).len rest := by
            simpa [validFrom, LinkedList.len, LinkedList.push] using hv
          have key := ih (l.push s) h2 hv2
          simp only [applyOp, pushCount, popCount, LinkedList.len, LinkedList.push] at key ⊢
          omega
      | pop =>
          simp only [validFrom] at hv
          obtain ⟨hpos, hv2⟩ := hv
          obtain ⟨c, n⟩ := l
          cases c with
          | nil =>
              simp [LinkedList.len, Chain.length] at hpos h
              omega
          | cons d next =>
              have hpop : (LinkedList.mk (Chain.cons d next) n).pop
                  = (some d, LinkedList.mk next (n - 1)) := rfl
              have h2 : (LinkedList.mk next (n - 1)).size
                  = (LinkedList.mk next (n - 1)).head.length := by
                simp [Chain.length] at h ⊢
                omega
              have hv3 : validFrom (LinkedList.mk next (n - 1)).len rest := by
                simpa [LinkedList.len] using hv2
              have key := ih _ h2 hv3
              simp only [applyOp, hpop, pushCount, popCount, LinkedList.len] at key hpos ⊢
              omega

lemma isEmpty_iff_len_zero (l : LinkedList) (h : l.size = l.head.length) :
    l.isEmpty = true ↔ l.len = 0 := by
  obtain ⟨c, n⟩ := l
  cases c <;> simp [LinkedList.isEmpty, LinkedList.len, Chain.length] at h ⊢ <;> omega

lemma appendEach_length (s : String) (c : Chain) :
    (c.appendEach s).length = c.length := by
  induction c <;> simp [Chain.appendEach, Chain.length, *]

lemma appendEach_toList (s : String) (c : Chain) :
    (c.appendEach s).toList = c.toList.map (fun v => v ++ s) := by
  induction c <;> simp [Chain.appendEach, Chain.toList, *]

lemma replicate_length (n : Nat) (s : String) :
    (Chain.replicate n s).length = n := by
  induction n <;> simp [Chain.replicate, Chain.length, *]

/-! ### Claim theorems -/

/-- C1: for every sequence of values `v1..vn` pushed in that order onto a
store created by `new()`, calling `pop()` n times returns `vn, ..., v1` in
that order (each wrapped in `some`), and the (n+1)-th `pop()` returns
`none`. -/
theorem pops_return_pushes_reversed (vs : List String) :
    popTimes (LinkedList.new.pushAll vs) (vs.length + 1)
      = vs.reverse.map some ++ [none] := by
  have h1 : (LinkedList.new.pushAll vs).head.toList = vs.reverse := by
    simpa [LinkedList.new, Chain.toList] using
      pushAll_head_toList LinkedList.new vs
  have h2 : (LinkedList.new.pushAll vs).head.length = vs.length := by
    rw [← Chain.toList_length, h1, List.length_reverse]
  have key := popTimes_drain (LinkedList.new.pushAll vs).head
    (LinkedList.new.pushAll vs).size
  rw [h2, h1] at key
  exact key

/-- C2 counterexample: pushing the values `"c"`, `"b"`, `"a"` in that order
puts `"a"` at the head, and `Display` renders head-to-tail, so the result
is `"[a, b, c]"`, not `"[c, b, a]"` as the claim states. -/
theorem display_push_cba_counterexample :
    (((LinkedList.new.push "c").push "b").push "a").display ≠ "[c, b, a]" := by
  decide

/-- C2 (amended): pushing the values `"a"`, `"b"`, `"c"` in that order onto
an empty store and formatting via `Display` yields exactly `"[c, b, a]"`
(matching the repository's `test_display`), and formatting an empty store
yields exactly `"[]"`. -/
theorem display_renders_head_to_tail :
    (((LinkedList.new.push "a").push "b").push "c").display = "[c, b, a]" ∧
    LinkedList.new.display = "[]" := by
  constructor <;> rfl

/-- C3: for every store reachable from `new()` by any sequence of `push`
and `pop` operations, the `size` field equals the number of nodes reachable
from `head`; moreover `push` and `pop` each preserve this equality from any
store satisfying it. -/
theorem size_invariant :
    (∀ ops : List Op, (run ops).size = (run ops).head.length) ∧
    (∀ (l : LinkedList) (s : String), l.size = l.head.length →
        (l.push s).size = (l.push s).head.length) ∧
    (∀ l : LinkedList, l.size = l.head.length →
        ((l.pop).2).size = ((l.pop).2).head.length) := by
  refine ⟨fun ops => foldl_size_eq ops LinkedList.new rfl, ?_, ?_⟩
  · intro l s h
    simp [LinkedList.push, Chain.length, h]
  · intro l h
    obtain ⟨c, n⟩ := l
    cases c with
    | nil => simpa using h
    | cons d next =>
        simp [LinkedList.pop, Chain.length] at h ⊢
        omega

/-- C3 witness: the invariant instantiated at the concrete run
`push "a"; pop`, at a concrete `push`, and at a concrete `pop`. -/
theorem size_invariant_witness :
    (run [Op.push "a", Op.pop]).size = (run [Op.push "a", Op.pop]).head.length ∧
    ((LinkedList.new.push "x").push "y").size
        = ((LinkedList.new.push "x").push "y").head.length ∧
    (((LinkedList.new.push "x").pop).2).size
        = (((LinkedList.new.push "x").pop).2).head.length :=
  ⟨size_invariant.1 [Op.push "a", Op.pop],
   size_invariant.2.1 (LinkedList.new.push "x") "y" (by decide),
   size_invariant.2.2 (LinkedList.new.push "x") (by decide)⟩

/-- C4: for every interleaving of k pushes and j pops in which each pop
happens on a non-empty store, `len()` returns k - j and `is_empty()`
returns true exactly when k - j = 0; and `is_empty()` equals
`len() == 0`. -/
theorem len_counts_pushes_minus_pops (ops : List Op)
    (h : validFrom 0 ops) :
    (run ops).len = pushCount ops - popCount ops ∧
    ((run ops).isEmpty = true ↔ pushCount ops - popCount ops = 0) ∧
    ((run ops).isEmpty = true ↔ (run ops).len = 0) := by
  have hinv : (run ops).size = (run ops).head.length :=
    foldl_size_eq ops LinkedList.new rfl
  have hlen : (run ops).len + popCount ops = pushCount ops := by
    have k := foldl_len_valid ops LinkedList.new rfl h
    simpa [run, LinkedList.len, LinkedList.new] using k
  have hiff := isEmpty_iff_len_zero (run ops) hinv
  refine ⟨by omega, ?_, hiff⟩
  rw [hiff]
  omega

/-- C4 witness: the count law at the concrete run `push "a"; push "b"; pop`. -/
theorem len_counts_witness :
    (run [Op.push "a", Op.push "b", Op.pop]).len
        = pushCount [Op.push "a", Op.push "b", Op.pop]
            - popCount [Op.push "a", Op.push "b", Op.pop] ∧
    ((run [Op.push "a", Op.push "b", Op.pop]).isEmpty = true ↔
        pushCount [Op.push "a", Op.push "b", Op.pop]
            - popCount [Op.push "a", Op.push "b", Op.pop] = 0) ∧
    ((run [Op.push "a", Op.push "b", Op.pop]).isEmpty = true ↔
        (run [Op.push "a", Op.push "b", Op.pop]).len = 0) :=
  len_counts_pushes_minus_pops [Op.push "a", Op.push "b", Op.pop]
    (by simp [validFrom])

/-- C5: `pop()` and `peek()` return `none` if and only if the store is
empty; both are total functions in the embedding, so absence is reported
as an ordinary return value, never a fault. -/
theorem pop_peek_absent_iff_empty (l : LinkedList) :
    ((l.pop).1 = none ↔ l.isEmpty = true) ∧
    (l.peek = none ↔ l.isEmpty = true) := by
  obtain ⟨c, n⟩ := l
  cases c <;>
    simp [LinkedList.pop, LinkedList.peek, LinkedList.isEmpty]

/-- C6: on a non-empty store, `peek()` returns exactly the value that the
next `pop()` would return (and that value is present).  `peek` takes
`&self` in the source and is embedded as a pure function of the store, so
it cannot change the head, the chain, or the count. -/
theorem peek_agrees_with_pop (l : LinkedList) (h : l.isEmpty = false) :
    l.peek = (l.pop).1 ∧ (l.peek).isSome = true := by
  obtain ⟨c, n⟩ := l
  cases c with
  | nil => simp [LinkedList.isEmpty] at h
  | cons d next => simp [LinkedList.peek, LinkedList.pop]

/-- C6 witness: `peek` and `pop` agree on the concrete store holding
`"x"`. -/
theorem peek_agrees_with_pop_witness :
    (LinkedList.new.push "x").isEmpty = false ∧
    ((LinkedList.new.push "x").peek = ((LinkedList.new.push "x").pop).1 ∧
      ((LinkedList.new.push "x").peek).isSome = true) :=
  ⟨by decide, peek_agrees_with_pop (LinkedList.new.push "x") (by decide)⟩

/-- C7: iterating over the store built by pushing `"c"`, `"b"`, `"a"` in
that order yields `"a"`, `"b"`, `"c"` and then ends; in general, draining
`iter()` yields exactly `len()` elements (head-to-tail) for every store
reachable from `new()`. -/
theorem iter_yields_head_to_tail :
    ((((LinkedList.new.push "c").push "b").push "a").iter).collect
        = ["a", "b", "c"] ∧
    (∀ ops : List Op, (((run ops).iter).collect).length = (run ops).len) := by
  refine ⟨rfl, fun ops => ?_⟩
  have h := foldl_size_eq ops LinkedList.new rfl
  simp only [Iter.collect, LinkedList.iter, LinkedList.len, Chain.toList_length]
  exact h.symm

/-- C8: appending a suffix `s` to each element through `iter_mut()` on the
store built by pushing `"c"`, `"b"`, `"a"` makes it display as
`"[a" ++ s ++ ", b" ++ s ++ ", c" ++ s ++ "]"`; the traversal rewrites the
values in place (each becomes `v ++ s`) and changes neither the chain
length nor the count. -/
theorem iter_mut_appends_in_place (s : String) :
    ((((LinkedList.new.push "c").push "b").push "a").iterMutAppend s).display
        = "[a" ++ s ++ ", b" ++ s ++ ", c" ++ s ++ "]" ∧
    (∀ l : LinkedList,
        (l.iterMutAppend s).size = l.size ∧
        (l.iterMutAppend s).head.length = l.head.length ∧
        (l.iterMutAppend s).head.toList = l.head.toList.map (fun v => v ++ s)) := by
  constructor
  · obtain ⟨cs⟩ := s
    apply String.ext
    simp [LinkedList.iterMutAppend, LinkedList.push, LinkedList.new,
      Chain.appendEach, LinkedList.display, Chain.displayBody,
      String.data_append]
  · intro l
    exact ⟨rfl, appendEach_length s l.head, appendEach_toList s l.head⟩

/-- C9: the `Drop` loop is one step function iterated with a single
current-node variable; iterating it `length` times drains any chain to
`nil`, in particular a chain of 10^6 nodes is torn down in exactly 10^6
loop iterations. -/
theorem drop_loop_drains_iteratively :
    (∀ c : Chain, Chain.dropStep^[c.length] c = Chain.nil) ∧
    Chain.dropStep^[1000000] (Chain.replicate 1000000 "x") = Chain.nil := by
  have main : ∀ c : Chain, Chain.dropStep^[c.length] c = Chain.nil := by
    intro c
    induction c with
    | nil => rfl
    | cons d next ih =>
        rw [Chain.length, Function.iterate_succ_apply]
        exact ih
  refine ⟨main, ?_⟩
  have h := main (Chain.replicate 1000000 "x")
  rwa [replicate_length] at h

/-- C10: `pop()` on an empty store returns `none` and leaves the store
exactly as it was (head still absent, `size` still untouched): the
`self.head.take()?` early return fires before the size decrement, so the
unsigned count is never decremented on an empty store. -/
theorem pop_on_empty_is_noop (l : LinkedList) (h : l.isEmpty = true) :
    l.pop = (none, l) := by
  obtain ⟨c, n⟩ := l
  cases c with
  | nil => rfl
  | cons d next => simp [LinkedList.isEmpty] at h

/-- C10 witness: popping the freshly created empty store returns `none`
and the unchanged store. -/
theorem pop_on_empty_is_noop_witness :
    LinkedList.new.isEmpty = true ∧ LinkedList.new.pop = (none, LinkedList.new) :=
  ⟨rfl, pop_on_empty_is_noop LinkedList.new rfl⟩

end LinkedListRs
